import Mathlib

/-!
Verification of the normalization pipeline in `src/normalize.py`
(`WindNormalize1d`): field mapping aside (a pure column renaming, so the
embedding works directly with canonical field names), the pipeline is
`normalize_wind_data` (date parse, dedupe, calendar reindex, sort, close
forward fill, invalid-volume masking, the `[89,111]` outlier-correction
loop, change computation, second masking), `adjusted_price` (factor =
adjclose/close forward filled, applied to prices and volume) and
`_manual_adj_data` (rebasing by the first valid close), composed by
`normalize`.

Cells of the pandas frame are IEEE-754 float64 values; we embed them as
`PVal`: NaN ("null"), a signed infinity, or an exact finite value carried
as a rational.  The claims under study concern the null / zero / infinity
structure of the arithmetic, not rounding, so exact rationals stand for
the finite doubles.  Arithmetic mirrors numpy: any operation on NaN gives
NaN, x/0 is a signed infinity for x ≠ 0 and NaN for x = 0, comparisons
with NaN are false.  A frame is a list of rows plus flags recording which
optional columns (`adjclose`, `factor`) exist; a flagged-off column's
field is never observed.  Dates are naturals (the pipeline only ever
compares, deduplicates and orders them; `pd.to_datetime` with the fixed
`%Y%m%d` format is an order-embedding on the parseable dates, which are
the ones the claims exercise).
-/

/-- A pandas float64 cell: NaN, ±∞ (`inf true` is +∞), or a finite value. -/
inductive PVal where
  | nan : PVal
  | inf : Bool → PVal
  | num : ℚ → PVal
deriving DecidableEq

namespace PVal

/-- `np.isnan` / pandas missingness of a float cell: only NaN is missing. -/
def isNan : PVal → Bool
  | nan => true
  | _ => false

/-- float64 division: NaN propagates; x/0 is NaN for x = 0 and a signed
infinity otherwise (numpy emits a warning, never raises); finite/∞ = 0. -/
def pdiv : PVal → PVal → PVal
  | nan, _ => nan
  | _, nan => nan
  | num a, num b =>
      if b = 0 then (if a = 0 then nan else inf (decide (0 < a)))
      else num (a / b)
  | inf s, num b => if b < 0 then inf (!s) else inf s
  | num _, inf _ => num 0
  | inf _, inf _ => nan

/-- float64 multiplication: NaN propagates; ∞ · 0 = NaN; signs multiply. -/
def pmul : PVal → PVal → PVal
  | nan, _ => nan
  | _, nan => nan
  | num a, num b => num (a * b)
  | inf s, num b => if b = 0 then nan else inf (s == decide (0 < b))
  | num a, inf s => if a = 0 then nan else inf (s == decide (0 < a))
  | inf s, inf t => inf (s == t)

/-- float64 subtraction: NaN propagates; ∞ − ∞ = NaN. -/
def psub : PVal → PVal → PVal
  | nan, _ => nan
  | _, nan => nan
  | num a, num b => num (a - b)
  | inf s, num _ => inf s
  | num _, inf s => inf (!s)
  | inf s, inf t => if s = t then nan else inf s

/-- float64 `≤`: any comparison involving NaN is false. -/
def ple : PVal → PVal → Bool
  | nan, _ => false
  | _, nan => false
  | num a, num b => decide (a ≤ b)
  | inf s, num _ => !s
  | num _, inf s => s
  | inf s, inf t => !s || t

/-- A cell holding no finite value (NaN or ±∞). -/
def isNonfinite : PVal → Bool
  | num _ => false
  | _ => true

end PVal

/-- One working row of the frame: the date key plus the canonical value
columns.  `adjclose` and `factor` are meaningful only when the owning
frame's flag says the column exists. -/
structure Row where
  date : ℕ
  «open» : PVal
  high : PVal
  low : PVal
  close : PVal
  volume : PVal
  amount : PVal
  adjclose : PVal
  change : PVal
  factor : PVal
deriving DecidableEq

/-- A single-symbol frame: its rows plus which optional columns exist. -/
structure DF where
  rows : List Row
  hasAdjclose : Bool
  hasFactor : Bool
deriving DecidableEq

namespace WindNormalize1d

open PVal

/-- Forward fill carrying the last non-NaN value (`Series.ffill`), started
from `prev`; leading NaNs stay NaN when started from NaN. -/
def ffillFrom (prev : PVal) : List PVal → List PVal
  | [] => []
  | v :: vs =>
      let w := if v.isNan then prev else v
      w :: ffillFrom w vs

/-- `Series.ffill`: leading NaNs stay NaN. -/
def ffill (l : List PVal) : List PVal := ffillFrom PVal.nan l

/-- `Series.shift(1)`: drop the last value, prepend NaN; empty stays empty. -/
def shift1 : List PVal → List PVal
  | [] => []
  | v :: vs => PVal.nan :: (v :: vs).dropLast

/-- The `_tmp_shift_series` of `calc_change`: the shifted forward-filled
close, its first cell overwritten with the seed when one is supplied
(`_tmp_shift_series.iloc[0] = float(last_close)`).  `none` models the
IndexError pandas raises when that positional write hits an empty series. -/
def shiftSeries (rows : List Row) (last_close : Option ℚ) : Option (List PVal) :=
  let sh := shift1 (ffill (rows.map Row.close))
  match last_close with
  | none => some sh
  | some c =>
      match sh with
      | [] => none
      | _ :: rest => some (PVal.num c :: rest)

/-- `WindNormalize1d.calc_change`: day-over-day change of the forward-filled
close, first row seeded by `last_close` when given.  `none` models the
IndexError raised on an empty frame with a seed. -/
def calc_change (rows : List Row) (last_close : Option ℚ) : Option (List PVal) :=
  (shiftSeries rows last_close).map fun sh =>
    List.zipWith (fun a b => psub (pdiv a b) (num 1))
      (ffill (rows.map Row.close)) sh

/-- The all-NaN placeholder row `reindex` creates for a calendar date absent
from the raw data. -/
def nullRow (d : ℕ) : Row :=
  ⟨d, PVal.nan, PVal.nan, PVal.nan, PVal.nan, PVal.nan, PVal.nan, PVal.nan,
    PVal.nan, PVal.nan⟩

/-- `df[~df.index.duplicated(keep="first")]`: drop every row whose date
already occurred earlier (`seen` carries the dates already kept). -/
def dedupDates (seen : List ℕ) : List Row → List Row
  | [] => []
  | r :: rs =>
      if r.date ∈ seen then dedupDates seen rs
      else r :: dedupDates (r.date :: seen) rs

/-- Step 5 of `normalize_wind_data`: reindex onto the calendar dates lying
between the frame's min and max date inclusive (the `+ 23h59m` on the upper
slice bound keeps the max date itself, as all dates are at midnight); a
calendar date with no matching row becomes an all-NaN row.  With no
calendar the frame passes through.  The `.loc` slice is modelled as a
filter, which coincides with pandas label slicing on the ascending
calendars the loader contract provides (slicing an unsorted index at
absent endpoints would raise instead). -/
def reindexStep (cal : Option (List ℕ)) (rows : List Row) : List Row :=
  match cal with
  | none => rows
  | some c =>
      let ds := rows.map Row.date
      let lo := ds.min?.getD 0
      let hi := ds.max?.getD 0
      (c.filter fun d => decide (lo ≤ d) && decide (d ≤ hi)).map fun d =>
        match rows.find? (fun r => r.date == d) with
        | some r => r
        | none => nullRow d

/-- `df.sort_index()` / `df.sort_values(date)`: sort rows by date. -/
def sortByDate (rows : List Row) : List Row :=
  rows.insertionSort fun a b => a.date ≤ b.date

/-- Steps 3–6 of `normalize_wind_data`: date keying, dedupe (first
occurrence wins), optional calendar reindexing, ascending sort. -/
def calendarAlign (cal : Option (List ℕ)) (rows : List Row) : List Row :=
  sortByDate (reindexStep cal (dedupDates [] rows))

/-- Step 8: forward-fill the close column down the frame. -/
def ffillClose (rows : List Row) : List Row :=
  List.zipWith (fun r c => { r with close := c }) rows
    (ffill (rows.map Row.close))

/-- The invalid-volume condition `(df["volume"] <= 0) | np.isnan(df["volume"])`. -/
def badVol (r : Row) : Bool :=
  ple r.volume (num 0) || r.volume.isNan

/-- Step 9, `df.loc[badvol, df.columns] = np.nan`: null every column of an
invalid-volume row.  `adjclose` is nulled only when that column exists;
`change` and `factor` are nulled unconditionally — when their columns do
not yet exist the model fields are dead until `calc_change` resp.
`adjusted_price` overwrite them, so this is observationally the same. -/
def maskAll (hasAdj : Bool) (r : Row) : Row :=
  if badVol r then
    { r with «open» := PVal.nan, high := PVal.nan, low := PVal.nan,
             close := PVal.nan, volume := PVal.nan, amount := PVal.nan,
             adjclose := if hasAdj then PVal.nan else r.adjclose,
             change := PVal.nan, factor := PVal.nan }
  else r

/-- The outlier-detection band `(change >= 89) & (change <= 111)`; a NaN
change is never flagged (both comparisons are false on NaN). -/
def inBand (c : PVal) : Bool :=
  ple (num 89) c && ple c (num 111)

/-- The correction applied to a flagged row: divide the price-bearing
columns (`high, close, low, open`, and `adjclose` when that column
exists) by 100; volume and amount untouched. -/
def div100 (hasAdj : Bool) (r : Row) : Row :=
  { r with high := pdiv r.high (num 100), close := pdiv r.close (num 100),
           low := pdiv r.low (num 100), «open» := pdiv r.«open» (num 100),
           adjclose := if hasAdj then pdiv r.adjclose (num 100) else r.adjclose }

/-- Divide the flagged rows (per the mask) by 100, the others untouched. -/
def correctRows (hasAdj : Bool) (rows : List Row) (mask : List Bool) : List Row :=
  List.zipWith (fun r m => if m then div100 hasAdj r else r) rows mask

/-- The outlier-correction `while` loop of `normalize_wind_data`: recompute
the change series, stop when no row's change lies in `[89, 111]`, else
divide the flagged rows' prices by 100; after the 10th correction the loop
breaks with a warning and keeps the data as last corrected.  `fuel` is the
remaining correction budget (10 at entry); `none` propagates the
IndexError `calc_change` raises on an empty frame with a seed. -/
def outlierLoop (hasAdj : Bool) (last_close : Option ℚ) :
    ℕ → List Row → Option (List Row)
  | 0, rows => some rows
  | fuel + 1, rows =>
      match calc_change rows last_close with
      | none => none
      | some ch =>
          let mask := ch.map inBand
          if mask.any id then
            outlierLoop hasAdj last_close fuel (correctRows hasAdj rows mask)
          else some rows

/-- Step 9 of the second numbering, `df["change"] = calc_change(...)`. -/
def setChange (rows : List Row) (ch : List PVal) : List Row :=
  List.zipWith (fun r c => { r with change := c }) rows ch

/-- Step 10, `df.loc[badvol, available_columns] = np.nan` with
`available_columns = COLUMNS + ["change"]`: null open, close, high, low,
volume and change of an invalid-volume row (amount, adjclose, factor were
already nulled by the first mask and are not in this column list). -/
def maskPost (r : Row) : Row :=
  if badVol r then
    { r with «open» := PVal.nan, close := PVal.nan, high := PVal.nan,
             low := PVal.nan, volume := PVal.nan, change := PVal.nan }
  else r

/-- `WindNormalize1d.normalize_wind_data`: the whole first stage.  `none`
models the only escaping exception (the seeded `calc_change` on a frame
the calendar reindexing left empty). -/
def normalize_wind_data (cal : Option (List ℕ)) (df : DF)
    (last_close : Option ℚ) : Option DF :=
  if df.rows.isEmpty then some df
  else
    let aligned := calendarAlign cal df.rows
    let filled := ffillClose aligned
    let masked := filled.map (maskAll df.hasAdjclose)
    match outlierLoop df.hasAdjclose last_close 10 masked with
    | none => none
    | some corrected =>
        match calc_change corrected last_close with
        | none => none
        | some ch =>
            some { rows := (setChange corrected ch).map maskPost,
                   hasAdjclose := df.hasAdjclose, hasFactor := df.hasFactor }

/-- `WindNormalize1d.adjusted_price`: factor = adjclose/close forward
filled (constant 1 when the adjclose column is absent); prices are
multiplied by the factor, volume divided by it; amount and adjclose are
untouched.  An empty frame is returned unchanged (no factor column added). -/
def adjusted_price (df : DF) : DF :=
  if df.rows.isEmpty then df
  else
    let factors : List PVal :=
      if df.hasAdjclose then ffill (df.rows.map fun r => pdiv r.adjclose r.close)
      else df.rows.map fun _ => num 1
    let withF := List.zipWith (fun r f => { r with factor := f }) df.rows factors
    { rows := withF.map fun r =>
        { r with «open» := pmul r.«open» r.factor,
                 close := pmul r.close r.factor,
                 high := pmul r.high r.factor,
                 low := pmul r.low r.factor,
                 volume := pdiv r.volume r.factor },
      hasAdjclose := df.hasAdjclose, hasFactor := true }

/-- `WindNormalize1d._get_first_close`: the close of the first row at or
after the close column's first valid (non-NaN) label; when no close is
valid, `first_valid_index()` is `None`, `df.loc[None:]` is the whole
frame, and the first row's (NaN) close is returned. -/
def _get_first_close (rows : List Row) : PVal :=
  match rows.find? (fun r => !r.close.isNan) with
  | some rv =>
      match rows.find? (fun r => r.date == rv.date) with
      | some r0 => r0.close
      | none => PVal.nan
  | none =>
      match rows with
      | [] => PVal.nan
      | r :: _ => r.close

/-- `WindNormalize1d._manual_adj_data`: sort by date, take the first valid
close `c0`, then rebase every numeric column except `adjclose`, `change`
and the date key: volume is multiplied by `c0`, the rest divided by it
(`factor`, present after `adjusted_price`, is numeric and not in the skip
list, so it is divided too). -/
def _manual_adj_data (df : DF) : DF :=
  if df.rows.isEmpty then df
  else
    let sorted := sortByDate df.rows
    let c := _get_first_close sorted
    { rows := sorted.map fun r =>
        { r with «open» := pdiv r.«open» c, high := pdiv r.high c,
                 low := pdiv r.low c, close := pdiv r.close c,
                 amount := pdiv r.amount c, volume := pmul r.volume c,
                 factor := if df.hasFactor then pdiv r.factor c else r.factor },
      hasAdjclose := df.hasAdjclose, hasFactor := df.hasFactor }

/-- `WindNormalize1d.normalize`: the full pipeline. -/
def normalize (cal : Option (List ℕ)) (df : DF) (last_close : Option ℚ) :
    Option DF :=
  (normalize_wind_data cal df last_close).map fun d =>
    _manual_adj_data (adjusted_price d)

/-- One body execution of the outlier `while` loop: recompute the change
series and divide the flagged rows by 100 (identity when `calc_change`
would raise). -/
def stepOnce (hasAdj : Bool) (lc : Option ℚ) (rows : List Row) : List Row :=
  match calc_change rows lc with
  | none => rows
  | some ch => correctRows hasAdj rows (ch.map inBand)

/-- Whether any row's change lies in the detection band (the loop's
`_mask.any()`). -/
def anyFlagged (lc : Option ℚ) (rows : List Row) : Option Bool :=
  (calc_change rows lc).map fun ch => (ch.map inBand).any id

/-! Concrete frames used by the counterexamples and witnesses. -/

/-- A one-row frame with no valid close anywhere (adjclose column
present, no factor column). -/
def c1df : DF :=
  ⟨[⟨0, PVal.num 5, PVal.num 6, PVal.num 4, PVal.nan, PVal.num 3,
     PVal.num 7, PVal.num 13, PVal.num 11, PVal.nan⟩], true, false⟩

/-- The row `_manual_adj_data` produces from `c1df`: every rebased field
NaN, date / change / adjclose untouched. -/
def c1outRow : Row :=
  ⟨0, PVal.nan, PVal.nan, PVal.nan, PVal.nan, PVal.nan, PVal.nan,
    PVal.num 13, PVal.num 11, PVal.nan⟩

/-- Two rows whose first close is exactly 0: the prior forward-filled
close of row 1 is 0, a zero divisor for the change calculation. -/
def c2rows : List Row :=
  [⟨0, PVal.num 1, PVal.num 1, PVal.num 1, PVal.num 0, PVal.num 5,
    PVal.num 1, PVal.nan, PVal.nan, PVal.nan⟩,
   ⟨1, PVal.num 5, PVal.num 5, PVal.num 5, PVal.num 5, PVal.num 5,
    PVal.num 1, PVal.nan, PVal.nan, PVal.nan⟩]

/-- A one-row frame whose volume is 0 (invalid) with the adjclose column
present. -/
def c3df : DF :=
  ⟨[⟨0, PVal.num 5, PVal.num 6, PVal.num 4, PVal.num 5, PVal.num 0,
     PVal.num 7, PVal.num 13, PVal.nan, PVal.nan⟩], true, false⟩

/-- A valid all-price-1 row at a given date. -/
def c4row (d : ℕ) : Row :=
  ⟨d, PVal.num 1, PVal.num 1, PVal.num 1, PVal.num 1, PVal.num 1,
    PVal.num 1, PVal.nan, PVal.nan, PVal.nan⟩

/-- Two rows in descending date order (dates 2 and 0). -/
def c4rows : List Row := [c4row 2, c4row 0]

/-- A row of the C5 synthetic series: all price-bearing fields (adjclose
included) at level `p`, volume 100, amount 7. -/
def c5row (d : ℕ) (p : ℚ) : Row :=
  ⟨d, PVal.num p, PVal.num p, PVal.num p, PVal.num p, PVal.num 100,
    PVal.num 7, PVal.num p, PVal.nan, PVal.nan⟩

/-- The C5 synthetic series: the middle row's prices are 100× its
neighbors' level, so its change is 1000/10 − 1 = 99 ∈ [89, 111]. -/
def c5rows : List Row := [c5row 0 10, c5row 1 1000, c5row 2 10]

/-- A one-row frame for the seeded change-calculation witness. -/
def c7rows : List Row :=
  [⟨0, PVal.num 3, PVal.num 3, PVal.num 3, PVal.num 3, PVal.num 5,
    PVal.num 1, PVal.nan, PVal.nan, PVal.nan⟩]

/-- A one-row frame with adjclose = close = 0 (IEEE-equal cells), so the
factor ratio is 0/0 = NaN. -/
def c8df : DF :=
  ⟨[⟨0, PVal.num 5, PVal.num 5, PVal.num 5, PVal.num 0, PVal.num 3,
     PVal.num 7, PVal.num 0, PVal.nan, PVal.nan⟩], true, false⟩

/-- A one-row frame with adjclose = close = 2, nonzero and valid. -/
def c8wdf : DF :=
  ⟨[⟨0, PVal.num 5, PVal.num 6, PVal.num 4, PVal.num 2, PVal.num 3,
     PVal.num 7, PVal.num 2, PVal.nan, PVal.nan⟩], true, false⟩

/-- The raw frame for the idempotence counterexample: two valid rows,
closes 2 and 4, volume 1, no adjclose column. -/
def c9df : DF :=
  ⟨[⟨0, PVal.num 2, PVal.num 2, PVal.num 2, PVal.num 2, PVal.num 1,
     PVal.num 3, PVal.nan, PVal.nan, PVal.nan⟩,
    ⟨1, PVal.num 4, PVal.num 4, PVal.num 4, PVal.num 4, PVal.num 1,
     PVal.num 5, PVal.nan, PVal.nan, PVal.nan⟩], false, false⟩

/-- `normalize` on `c9df`: prices rebased by the first close 2, volume
multiplied by it, factor column (uniformly 1 before rebasing) rebased to
1/2. -/
def c9out1 : DF :=
  ⟨[⟨0, PVal.num 1, PVal.num 1, PVal.num 1, PVal.num 1, PVal.num 2,
     PVal.num (3 / 2), PVal.nan, PVal.nan, PVal.num (1 / 2)⟩,
    ⟨1, PVal.num 2, PVal.num 2, PVal.num 2, PVal.num 2, PVal.num 2,
     PVal.num (5 / 2), PVal.nan, PVal.num 1, PVal.num (1 / 2)⟩], false, true⟩

/-- `normalize` on `c9out1`: the factor column is recomputed (constant 1,
the adjclose column being absent) and rebased by the new first close 1,
so it ends at 1 instead of 1/2; all other fields reproduce themselves. -/
def c9out2 : DF :=
  ⟨[⟨0, PVal.num 1, PVal.num 1, PVal.num 1, PVal.num 1, PVal.num 2,
     PVal.num (3 / 2), PVal.nan, PVal.nan, PVal.num 1⟩,
    ⟨1, PVal.num 2, PVal.num 2, PVal.num 2, PVal.num 2, PVal.num 2,
     PVal.num (5 / 2), PVal.nan, PVal.num 1, PVal.num 1⟩], false, true⟩

end WindNormalize1d

instance : IsTotal Row fun a b => a.date ≤ b.date :=
  ⟨fun a b => Nat.le_total a.date b.date⟩

instance : IsTrans Row fun a b => a.date ≤ b.date :=
  ⟨fun _ _ _ h h' => Nat.le_trans h h'⟩

/-! Theorems.  First the float-cell arithmetic facts, then the support
lemmas about the pipeline's building blocks, then one theorem (with its
witness or counterexample) per claim. -/

namespace PVal

theorem pdiv_nan_right (v : PVal) : pdiv v nan = nan := by
  cases v <;> rfl

theorem pmul_nan_right (v : PVal) : pmul v nan = nan := by
  cases v <;> rfl

theorem pdiv_nan_left (v : PVal) : pdiv nan v = nan := by
  cases v <;> rfl

theorem isNan_pdiv_nan_right (v : PVal) : (pdiv v nan).isNan = true := by
  cases v <;> rfl

theorem pdiv_isNan_of_isNan_right (a b : PVal) (h : b.isNan = true) :
    (pdiv a b).isNan = true := by
  cases b <;> simp [isNan] at h ⊢ <;> cases a <;> rfl

theorem pmul_isNan_of_isNan_right (a b : PVal) (h : b.isNan = true) :
    (pmul a b).isNan = true := by
  cases b <;> simp [isNan] at h ⊢ <;> cases a <;> rfl

theorem isNonfinite_pdiv_zero (a : PVal) :
    (pdiv a (num 0)).isNonfinite = true := by
  cases a with
  | nan => rfl
  | inf s => simp [pdiv, isNonfinite]
  | num q =>
      by_cases h : q = 0 <;> simp [pdiv, h, isNonfinite]

theorem isNan_pdiv_of_isNan (a : PVal) (h : a.isNan = true) (b : PVal) :
    (pdiv a b).isNan = true := by
  cases a <;> simp [isNan] at h ⊢ <;> cases b <;> rfl

theorem isNan_pdiv_num_of_isNan (a : PVal) (h : a.isNan = true) (q : ℚ) :
    (pdiv a (num q)).isNan = true := isNan_pdiv_of_isNan a h (num q)

theorem pmul_one (v : PVal) : pmul v (num 1) = v := by
  cases v with
  | nan => rfl
  | inf s => cases s <;> simp [pmul]
  | num q => simp [pmul]

theorem pdiv_one (v : PVal) : pdiv v (num 1) = v := by
  cases v with
  | nan => rfl
  | inf s => simp [pdiv]
  | num q => simp [pdiv]

theorem isNonfinite_psub_one (v : PVal) (h : v.isNonfinite = true) :
    (psub v (num 1)).isNonfinite = true := by
  cases v <;> simp [isNonfinite] at h ⊢ <;> rfl

theorem isNan_psub_one (v : PVal) (h : v.isNan = true) :
    (psub v (num 1)).isNan = true := by
  cases v <;> simp [isNan, psub] at h ⊢

end PVal

namespace WindNormalize1d

open PVal

theorem mem_zipWith_ex {α β γ : Type} {f : α → β → γ} :
    ∀ {l₁ : List α} {l₂ : List β} {c : γ}, c ∈ List.zipWith f l₁ l₂ →
      ∃ a ∈ l₁, ∃ b ∈ l₂, c = f a b
  | [], _, _, h => by simp at h
  | _ :: _, [], _, h => by simp at h
  | a :: as, b :: bs, c, h => by
      rcases List.mem_cons.mp h with h | h
      · exact ⟨a, List.mem_cons_self a as, b, List.mem_cons_self b bs, h⟩
      · obtain ⟨x, hx, y, hy, hc⟩ := mem_zipWith_ex h
        exact ⟨x, List.mem_cons_of_mem a hx, y, List.mem_cons_of_mem b hy, hc⟩

theorem ffillFrom_length (p : PVal) : ∀ l : List PVal, (ffillFrom p l).length = l.length
  | [] => rfl
  | v :: vs => by simp [ffillFrom, ffillFrom_length _ vs]

theorem ffill_length (l : List PVal) : (ffill l).length = l.length :=
  ffillFrom_length _ l

theorem shift1_length (l : List PVal) : (shift1 l).length = l.length := by
  cases l with
  | nil => rfl
  | cons v vs => simp [shift1]

theorem shiftSeries_length {rows : List Row} {lc : Option ℚ} {sh : List PVal}
    (h : shiftSeries rows lc = some sh) : sh.length = rows.length := by
  have hlen : (shift1 (ffill (rows.map Row.close))).length = rows.length := by
    rw [shift1_length, ffill_length, List.length_map]
  cases lc with
  | none =>
      simp only [shiftSeries] at h
      rw [← Option.some_inj.mp h]
      exact hlen
  | some c =>
      simp only [shiftSeries] at h
      cases hsh : shift1 (ffill (rows.map Row.close)) with
      | nil => rw [hsh] at h; exact absurd h (by simp)
      | cons v vs =>
          rw [hsh] at h
          rw [← Option.some_inj.mp h]
          simpa [hsh] using hlen

theorem calc_change_length {rows : List Row} {lc : Option ℚ} {ch : List PVal}
    (h : calc_change rows lc = some ch) : ch.length = rows.length := by
  simp only [calc_change, Option.map_eq_some'] at h
  obtain ⟨sh, hsh, hch⟩ := h
  rw [← hch, List.length_zipWith, ffill_length, List.length_map,
    shiftSeries_length hsh, Nat.min_self]

theorem shiftSeries_isSome (rows : List Row) (lc : Option ℚ)
    (h : rows ≠ [] ∨ lc = none) : ∃ sh, shiftSeries rows lc = some sh := by
  cases lc with
  | none => exact ⟨_, rfl⟩
  | some c =>
      rcases h with h | h
      · cases rows with
        | nil => exact absurd rfl h
        | cons r rs =>
            simp only [shiftSeries, shift1, List.map_cons]
            cases hf : ffillFrom PVal.nan (Row.close r :: rs.map Row.close) with
            | nil => exact absurd (ffillFrom_length _ _ ▸ congrArg List.length hf) (by simp)
            | cons v vs => exact ⟨_, rfl⟩
      · exact absurd h (by simp)

theorem calc_change_isSome (rows : List Row) (lc : Option ℚ)
    (h : rows ≠ [] ∨ lc = none) : ∃ ch, calc_change rows lc = some ch := by
  obtain ⟨sh, hsh⟩ := shiftSeries_isSome rows lc h
  exact ⟨List.zipWith (fun a b => psub (pdiv a b) (num 1))
      (ffill (rows.map Row.close)) sh,
    by rw [calc_change, hsh, Option.map_some']⟩

theorem outlierLoop_stop (hasAdj : Bool) (lc : Option ℚ) (fuel : ℕ)
    (rows : List Row) (ch : List PVal) (h : calc_change rows lc = some ch)
    (hno : (ch.map inBand).any id = false) :
    outlierLoop hasAdj lc (fuel + 1) rows = some rows := by
  simp [outlierLoop, h, hno]

theorem outlierLoop_step (hasAdj : Bool) (lc : Option ℚ) (fuel : ℕ)
    (rows : List Row) (ch : List PVal) (h : calc_change rows lc = some ch)
    (hyes : (ch.map inBand).any id = true) :
    outlierLoop hasAdj lc (fuel + 1) rows =
      outlierLoop hasAdj lc fuel (correctRows hasAdj rows (ch.map inBand)) := by
  simp [outlierLoop, h, hyes]

theorem calc_change_getElem {rows : List Row} {lc : Option ℚ} {ch : List PVal}
    {sh : List PVal} (h : calc_change rows lc = some ch)
    (hsh : shiftSeries rows lc = some sh) (t : ℕ) (ht : t < rows.length) :
    ch[t]? = some (psub
      (pdiv ((ffill (rows.map Row.close)).getD t PVal.nan) (sh.getD t PVal.nan))
      (num 1)) := by
  have hf : (ffill (rows.map Row.close))[t]? =
      some ((ffill (rows.map Row.close)).getD t PVal.nan) := by
    rw [List.getD_eq_getElem?_getD]
    cases hx : (ffill (rows.map Row.close))[t]? with
    | none =>
        rw [List.getElem?_eq_none_iff, ffill_length, List.length_map] at hx
        omega
    | some x => rfl
  have hs : sh[t]? = some (sh.getD t PVal.nan) := by
    rw [List.getD_eq_getElem?_getD]
    cases hx : sh[t]? with
    | none =>
        rw [List.getElem?_eq_none_iff, shiftSeries_length hsh] at hx
        omega
    | some x => rfl
  rw [calc_change, hsh, Option.map_some'] at h
  rw [← Option.some_inj.mp h, List.getElem?_zipWith, hf, hs]

theorem shiftSeries_getElem_succ {rows : List Row} {lc : Option ℚ}
    {sh : List PVal} (h : shiftSeries rows lc = some sh) (t : ℕ)
    (ht : t + 1 < rows.length) :
    sh[t + 1]? = (ffill (rows.map Row.close))[t]? := by
  have hlen : (ffill (rows.map Row.close)).length = rows.length := by
    rw [ffill_length, List.length_map]
  have hshift : ∀ u, u + 1 < rows.length →
      (shift1 (ffill (rows.map Row.close)))[u + 1]? =
        (ffill (rows.map Row.close))[u]? := by
    intro u hu
    cases hff : ffill (rows.map Row.close) with
    | nil => rw [hff] at hlen; simp at hlen; omega
    | cons v vs =>
        rw [hff] at hlen
        show (PVal.nan :: (v :: vs).dropLast)[u + 1]? = (v :: vs)[u]?
        rw [List.getElem?_cons_succ, List.getElem?_dropLast, if_pos (by omega)]
  cases lc with
  | none =>
      simp only [shiftSeries] at h
      rw [← Option.some_inj.mp h]
      exact hshift t ht
  | some c =>
      simp only [shiftSeries] at h
      cases hsh1 : shift1 (ffill (rows.map Row.close)) with
      | nil => rw [hsh1] at h; exact absurd h (by simp)
      | cons v vs =>
          rw [hsh1] at h
          rw [← Option.some_inj.mp h]
          have := hshift t ht
          rw [hsh1] at this
          simpa using this

theorem shiftSeries_head_none {rows : List Row} {sh : List PVal}
    (h : shiftSeries rows none = some sh) (hne : rows ≠ []) :
    sh[0]? = some PVal.nan := by
  simp only [shiftSeries] at h
  rw [← Option.some_inj.mp h]
  cases rows with
  | nil => exact absurd rfl hne
  | cons r rs =>
      cases hff : ffill ((r :: rs).map Row.close) with
      | nil =>
          have := ffill_length ((r :: rs).map Row.close)
          rw [hff] at this
          simp at this
      | cons v vs => simp [shift1, hff]

theorem shiftSeries_head_some {rows : List Row} {c : ℚ} {sh : List PVal}
    (h : shiftSeries rows (some c) = some sh) : sh[0]? = some (PVal.num c) := by
  simp only [shiftSeries] at h
  cases hsh1 : shift1 (ffill (rows.map Row.close)) with
  | nil => rw [hsh1] at h; exact absurd h (by simp)
  | cons v vs =>
      rw [hsh1] at h
      rw [← Option.some_inj.mp h]
      simp

theorem dedupDates_map_mem : ∀ (rows : List Row) (seen : List ℕ) (d : ℕ),
    (d ∈ (dedupDates seen rows).map Row.date ↔ d ∈ rows.map Row.date ∧ d ∉ seen)
  | [], seen, d => by simp [dedupDates]
  | r :: rs, seen, d => by
      by_cases hs : r.date ∈ seen
      · rw [show dedupDates seen (r :: rs) = dedupDates seen rs by
          simp [dedupDates, hs]]
        rw [dedupDates_map_mem rs seen d]
        simp only [List.map_cons, List.mem_cons]
        constructor
        · exact fun h => ⟨Or.inr h.1, h.2⟩
        · rintro ⟨h1 | h1, h2⟩
          · exact absurd (h1 ▸ hs) h2
          · exact ⟨h1, h2⟩
      · rw [show dedupDates seen (r :: rs) = r :: dedupDates (r.date :: seen) rs by
          simp [dedupDates, hs]]
        simp only [List.map_cons, List.mem_cons,
          dedupDates_map_mem rs (r.date :: seen) d]
        constructor
        · rintro (h | ⟨h1, h2⟩)
          · exact ⟨Or.inl h, h ▸ hs⟩
          · simp only [List.mem_cons, not_or] at h2
            exact ⟨Or.inr h1, h2.2⟩
        · rintro ⟨h1 | h1, h2⟩
          · exact Or.inl h1
          · by_cases hd : d = r.date
            · exact Or.inl hd
            · exact Or.inr ⟨h1, by simp [hd, h2]⟩

theorem dedupDates_map_nodup : ∀ (rows : List Row) (seen : List ℕ),
    ((dedupDates seen rows).map Row.date).Nodup
  | [], seen => by simp [dedupDates]
  | r :: rs, seen => by
      by_cases hs : r.date ∈ seen
      · rw [show dedupDates seen (r :: rs) = dedupDates seen rs by
          simp [dedupDates, hs]]
        exact dedupDates_map_nodup rs seen
      · rw [show dedupDates seen (r :: rs) = r :: dedupDates (r.date :: seen) rs by
          simp [dedupDates, hs]]
        rw [List.map_cons, List.nodup_cons]
        refine ⟨fun hmem => ?_, dedupDates_map_nodup rs (r.date :: seen)⟩
        have := (dedupDates_map_mem rs (r.date :: seen) r.date).mp hmem
        exact this.2 (List.mem_cons_self _ _)

theorem min?_congr {l l' : List ℕ} (h : ∀ x, x ∈ l ↔ x ∈ l') :
    l.min? = l'.min? := by
  cases hl : l.min? with
  | none =>
      rw [List.min?_eq_none_iff] at hl
      subst hl
      cases hl' : l'.min? with
      | none => rfl
      | some m =>
          have hm := (List.min?_eq_some_iff (fun a => Nat.le_refl a)
            (fun a b => by omega) (fun a b c => by omega)).mp hl'
          exact absurd ((h m).mpr hm.1) (by simp)
  | some m =>
      have hm := (List.min?_eq_some_iff (fun a => Nat.le_refl a)
        (fun a b => by omega) (fun a b c => by omega)).mp hl
      exact ((List.min?_eq_some_iff (fun a => Nat.le_refl a)
        (fun a b => by omega) (fun a b c => by omega)).mpr
        ⟨(h m).mp hm.1, fun b hb => hm.2 b ((h b).mpr hb)⟩).symm

theorem max?_congr {l l' : List ℕ} (h : ∀ x, x ∈ l ↔ x ∈ l') :
    l.max? = l'.max? := by
  cases hl : l.max? with
  | none =>
      rw [List.max?_eq_none_iff] at hl
      subst hl
      cases hl' : l'.max? with
      | none => rfl
      | some m =>
          have hm := (List.max?_eq_some_iff (fun a => Nat.le_refl a)
            (fun a b => by omega) (fun a b c => by omega)).mp hl'
          exact absurd ((h m).mpr hm.1) (by simp)
  | some m =>
      have hm := (List.max?_eq_some_iff (fun a => Nat.le_refl a)
        (fun a b => by omega) (fun a b c => by omega)).mp hl
      exact ((List.max?_eq_some_iff (fun a => Nat.le_refl a)
        (fun a b => by omega) (fun a b c => by omega)).mpr
        ⟨(h m).mp hm.1, fun b hb => hm.2 b ((h b).mpr hb)⟩).symm

theorem reindexStep_map_date (c : List ℕ) (rows : List Row) :
    (reindexStep (some c) rows).map Row.date =
      c.filter fun d =>
        decide ((rows.map Row.date).min?.getD 0 ≤ d) &&
        decide (d ≤ (rows.map Row.date).max?.getD 0) := by
  simp only [reindexStep, List.map_map]
  refine (List.map_congr_left ?_).trans (List.map_id _)
  intro d _
  simp only [Function.comp_apply, id_eq]
  cases hfind : rows.find? fun r => r.date == d with
  | none => rfl
  | some r => simpa using List.find?_some hfind

/-- C4.  For every input table the calendar-alignment steps of
`normalize_wind_data` (date keying, dedupe with first occurrence winning,
optional reindexing onto the trading calendar, ascending sort) produce a
table whose dates are strictly increasing — hence sorted ascending with
no duplicate dates — both without a calendar and with one; and when a
(well-formed: strictly ascending) calendar is available, the output's
date axis is exactly the calendar's dates lying between the raw table's
minimum and maximum parsed date inclusive, calendar dates absent from
the raw data appearing as rows whose fields are all null. -/
theorem c4_calendar_alignment (c : List ℕ) (rows : List Row)
    (hc : List.Pairwise (· < ·) c) (_hne : rows ≠ []) :
    List.Pairwise (· < ·) ((calendarAlign none rows).map Row.date) ∧
    List.Pairwise (· < ·) ((calendarAlign (some c) rows).map Row.date) ∧
    (calendarAlign (some c) rows).map Row.date =
      c.filter (fun d =>
        decide ((rows.map Row.date).min?.getD 0 ≤ d) &&
        decide (d ≤ (rows.map Row.date).max?.getD 0)) ∧
    ∀ r ∈ calendarAlign (some c) rows, r.date ∉ rows.map Row.date →
      r = nullRow r.date := by
  have hmemdd : ∀ d, d ∈ (dedupDates [] rows).map Row.date ↔
      d ∈ rows.map Row.date := by
    intro d
    rw [dedupDates_map_mem rows [] d]
    simp
  -- the no-calendar branch: dedupe then sort gives strictly increasing dates
  refine ⟨?_, ?_⟩
  · have hsorted : List.Sorted (fun a b : Row => a.date ≤ b.date)
        (sortByDate (dedupDates [] rows)) := List.sorted_insertionSort _ _
    have hperm : List.Perm (sortByDate (dedupDates [] rows))
        (dedupDates [] rows) := List.perm_insertionSort _ _
    have hnodup : ((sortByDate (dedupDates [] rows)).map Row.date).Nodup :=
      ((hperm.map Row.date).nodup_iff).mpr (dedupDates_map_nodup rows [])
    have hle : ((sortByDate (dedupDates [] rows)).map Row.date).Pairwise
        (· ≤ ·) := List.pairwise_map.mpr hsorted
    have : calendarAlign none rows = sortByDate (dedupDates [] rows) := rfl
    rw [this]
    exact (hle.and hnodup).imp fun h => Nat.lt_of_le_of_ne h.1 h.2
  -- the calendar branch
  have hmap : (reindexStep (some c) (dedupDates [] rows)).map Row.date =
      c.filter (fun d =>
        decide ((rows.map Row.date).min?.getD 0 ≤ d) &&
        decide (d ≤ (rows.map Row.date).max?.getD 0)) := by
    rw [reindexStep_map_date,
      min?_congr (fun x => hmemdd x), max?_congr (fun x => hmemdd x)]
  have hfiltlt : (c.filter (fun d =>
      decide ((rows.map Row.date).min?.getD 0 ≤ d) &&
      decide (d ≤ (rows.map Row.date).max?.getD 0))).Pairwise (· < ·) :=
    hc.filter _
  have hrilt : ((reindexStep (some c) (dedupDates [] rows)).map
      Row.date).Pairwise (· < ·) := by rw [hmap]; exact hfiltlt
  have hsortedri : List.Sorted (fun a b : Row => a.date ≤ b.date)
      (reindexStep (some c) (dedupDates [] rows)) :=
    List.pairwise_map.mp (hrilt.imp Nat.le_of_lt)
  have heq : calendarAlign (some c) rows =
      reindexStep (some c) (dedupDates [] rows) :=
    List.Sorted.insertionSort_eq hsortedri
  refine ⟨by rw [heq]; exact hrilt, by rw [heq]; exact hmap, ?_⟩
  intro r hr hnotin
  rw [heq] at hr
  simp only [reindexStep, List.mem_map] at hr
  obtain ⟨d, _, hgen⟩ := hr
  cases hfind : (dedupDates [] rows).find? (fun x => x.date == d) with
  | none =>
      rw [hfind] at hgen
      rw [← hgen]
      rfl
  | some x =>
      rw [hfind] at hgen
      have hx : x ∈ dedupDates [] rows := List.mem_of_find?_eq_some hfind
      have hxd : x.date ∈ rows.map Row.date :=
        (hmemdd x.date).mp (List.mem_map_of_mem Row.date hx)
      rw [← hgen] at hnotin
      exact absurd hxd hnotin

theorem outlierLoop_iterate (hasAdj : Bool) (lc : Option ℚ) :
    ∀ (fuel : ℕ) (rows : List Row), (rows ≠ [] ∨ lc = none) →
      ∃ k ≤ fuel, outlierLoop hasAdj lc fuel rows =
          some ((stepOnce hasAdj lc)^[k] rows) ∧
        (k < fuel → anyFlagged lc ((stepOnce hasAdj lc)^[k] rows) = some false)
  | 0, rows, _ => ⟨0, Nat.le_refl 0, rfl, fun h => absurd h (by omega)⟩
  | fuel + 1, rows, h => by
      obtain ⟨ch, hch⟩ := calc_change_isSome rows lc h
      by_cases hflag : (ch.map inBand).any id = true
      · have hstep : stepOnce hasAdj lc rows =
            correctRows hasAdj rows (ch.map inBand) := by
          simp [stepOnce, hch]
        have hne' : correctRows hasAdj rows (ch.map inBand) ≠ [] ∨ lc = none := by
          rcases h with h | h
          · left
            have hlen : (correctRows hasAdj rows (ch.map inBand)).length =
                rows.length := by
              rw [correctRows, List.length_zipWith, List.length_map,
                calc_change_length hch, Nat.min_self]
            intro hnil
            rw [hnil] at hlen
            exact h (List.length_eq_zero.mp hlen.symm)
          · right; exact h
        obtain ⟨k, hk, hloop, hstop⟩ := outlierLoop_iterate hasAdj lc fuel _ hne'
        refine ⟨k + 1, by omega, ?_, ?_⟩
        · rw [outlierLoop_step hasAdj lc fuel rows ch hch hflag, hloop,
            Function.iterate_succ_apply, hstep]
        · intro hlt
          rw [Function.iterate_succ_apply, hstep]
          exact hstop (by omega)
      · refine ⟨0, by omega, ?_, fun _ => ?_⟩
        · rw [outlierLoop_stop hasAdj lc fuel rows ch hch
            (by simpa using hflag)]
          rfl
        · rw [Function.iterate_zero_apply, anyFlagged, hch, Option.map_some']
          simpa using hflag

/-- C6.  For every input table the outlier-correction loop performs at
most 10 correction passes: its result is the `k`-fold application of the
single correction pass for some `k ≤ 10`, and when it stopped before
exhausting the 10-pass budget it did so because no row's change lies in
the detection band any more (the loop always terminates; past the budget
it proceeds, with a non-fatal warning, on the data as last corrected).
The hypothesis excludes only the empty-frame-with-seed case, in which
`calc_change` raises before any flag is computed. -/
theorem c6_outlier_loop_bounded (hasAdj : Bool) (lc : Option ℚ)
    (rows : List Row) (h : rows ≠ [] ∨ lc = none) :
    ∃ k ≤ 10, outlierLoop hasAdj lc 10 rows =
        some ((stepOnce hasAdj lc)^[k] rows) ∧
      (k < 10 → anyFlagged lc ((stepOnce hasAdj lc)^[k] rows) = some false) :=
  outlierLoop_iterate hasAdj lc 10 rows h

theorem maskAll_invariant (hasAdj : Bool) (r : Row) :
    badVol (maskAll hasAdj r) = true →
      (maskAll hasAdj r).amount.isNan = true ∧
      (hasAdj = true → (maskAll hasAdj r).adjclose.isNan = true) := by
  by_cases hb : badVol r = true
  · exact fun _ => ⟨by simp [maskAll, hb, PVal.isNan],
      fun ha => by simp [maskAll, hb, ha, PVal.isNan]⟩
  · intro hmb
    rw [maskAll, if_neg hb] at hmb
    exact absurd hmb hb

theorem div100_invariant (hasAdj : Bool) (r : Row)
    (h : badVol r = true → r.amount.isNan = true ∧
      (hasAdj = true → r.adjclose.isNan = true)) :
    badVol (div100 hasAdj r) = true →
      (div100 hasAdj r).amount.isNan = true ∧
      (hasAdj = true → (div100 hasAdj r).adjclose.isNan = true) := by
  intro hb
  have hb' : badVol r = true := hb
  obtain ⟨h1, h2⟩ := h hb'
  refine ⟨h1, fun ha => ?_⟩
  show (if hasAdj then pdiv r.adjclose (num 100) else r.adjclose).isNan = true
  rw [if_pos ha]
  exact PVal.isNan_pdiv_num_of_isNan _ (h2 ha) 100

theorem correctRows_invariant (hasAdj : Bool) (rows : List Row)
    (mask : List Bool)
    (h : ∀ r ∈ rows, badVol r = true → r.amount.isNan = true ∧
      (hasAdj = true → r.adjclose.isNan = true)) :
    ∀ r ∈ correctRows hasAdj rows mask, badVol r = true →
      r.amount.isNan = true ∧ (hasAdj = true → r.adjclose.isNan = true) := by
  intro r hr
  obtain ⟨a, ha, b, _, hc⟩ := mem_zipWith_ex hr
  subst hc
  cases b
  · simpa using h a ha
  · simpa using div100_invariant hasAdj a (h a ha)

theorem outlierLoop_invariant (hasAdj : Bool) (lc : Option ℚ) :
    ∀ (fuel : ℕ) (rows out : List Row),
      (∀ r ∈ rows, badVol r = true → r.amount.isNan = true ∧
        (hasAdj = true → r.adjclose.isNan = true)) →
      outlierLoop hasAdj lc fuel rows = some out →
      ∀ r ∈ out, badVol r = true → r.amount.isNan = true ∧
        (hasAdj = true → r.adjclose.isNan = true)
  | 0, rows, out, hP, h => by
      rw [← Option.some_inj.mp h]
      exact hP
  | fuel + 1, rows, out, hP, h => by
      rcases hch : calc_change rows lc with _ | ch
      · rw [outlierLoop, hch] at h
        exact absurd h (by simp)
      · by_cases hflag : ((ch.map inBand).any id) = true
        · rw [outlierLoop_step hasAdj lc fuel rows ch hch hflag] at h
          exact outlierLoop_invariant hasAdj lc fuel _ out
            (correctRows_invariant hasAdj rows _ hP) h
        · rw [outlierLoop_stop hasAdj lc fuel rows ch hch
            (by simpa using hflag)] at h
          rw [← Option.some_inj.mp h]
          exact hP

/-- C3.  After `normalize_wind_data` completes (invalid-volume masking
before outlier correction, and again after change computation), every
output row whose volume is non-positive or null has all of its
non-symbol fields null: open, high, low, close, volume, the derived
change, amount, and — when the adjclose column exists — adjclose. -/
theorem c3_invalid_volume_masked (cal : Option (List ℕ)) (df : DF)
    (lc : Option ℚ) (out : DF) (r : Row)
    (h : normalize_wind_data cal df lc = some out)
    (hr : r ∈ out.rows) (hb : badVol r = true) :
    r.«open».isNan = true ∧ r.high.isNan = true ∧ r.low.isNan = true ∧
    r.close.isNan = true ∧ r.volume.isNan = true ∧ r.change.isNan = true ∧
    r.amount.isNan = true ∧
    (out.hasAdjclose = true → r.adjclose.isNan = true) := by
  rw [normalize_wind_data] at h
  by_cases hemp : df.rows.isEmpty = true
  · rw [if_pos hemp] at h
    rw [← Option.some_inj.mp h] at hr
    rw [List.isEmpty_iff] at hemp
    rw [hemp] at hr
    exact absurd hr (List.not_mem_nil r)
  · rw [if_neg hemp] at h
    dsimp only [] at h
    rcases hloop : outlierLoop df.hasAdjclose lc 10
        ((ffillClose (calendarAlign cal df.rows)).map (maskAll df.hasAdjclose))
      with _ | corrected
    · rw [hloop] at h
      exact absurd h (by simp)
    · rw [hloop] at h
      dsimp only [] at h
      rcases hch : calc_change corrected lc with _ | ch
      · rw [hch] at h
        exact absurd h (by simp)
      · rw [hch] at h
        dsimp only [] at h
        have hinv : ∀ x ∈ corrected, badVol x = true →
            x.amount.isNan = true ∧
            (df.hasAdjclose = true → x.adjclose.isNan = true) :=
          outlierLoop_invariant df.hasAdjclose lc 10 _ corrected
            (by
              intro x hx
              obtain ⟨y, _, hy⟩ := List.mem_map.mp hx
              rw [← hy]
              exact maskAll_invariant df.hasAdjclose y)
            hloop
        have hrows : out.rows = (setChange corrected ch).map maskPost := by
          rw [← Option.some_inj.mp h]
        have hadj : out.hasAdjclose = df.hasAdjclose := by
          rw [← Option.some_inj.mp h]
        rw [hrows] at hr
        obtain ⟨x, hx, hxr⟩ := List.mem_map.mp hr
        obtain ⟨y, hy, c, _, hyc⟩ := mem_zipWith_ex hx
        by_cases hbx : badVol x = true
        · have hyinv : badVol y = true := by
            rw [hyc] at hbx
            exact hbx
          obtain ⟨ham, had⟩ := hinv y hy hyinv
          rw [← hxr]
          refine ⟨?_, ?_, ?_, ?_, ?_, ?_, ?_, ?_⟩ <;>
            simp only [maskPost, if_pos hbx]
          · rfl
          · rfl
          · rfl
          · rfl
          · rfl
          · rfl
          · rw [hyc]; exact ham
          · rw [hadj, hyc]; exact fun hA => had hA
        · rw [← hxr] at hb
          rw [maskPost, if_neg hbx] at hb
          exact absurd hb hbx

theorem isNonfinite_of_isNan (v : PVal) (h : v.isNan = true) :
    v.isNonfinite = true := by
  cases v <;> simp [PVal.isNan, PVal.isNonfinite] at h ⊢

theorem eq_nan_of_isNan (v : PVal) (h : v.isNan = true) : v = PVal.nan := by
  cases v <;> simp [PVal.isNan] at h ⊢

theorem getD_of_getElem?_some {α : Type} {l : List α} {t : ℕ} {v d : α}
    (h : l[t]? = some v) : l.getD t d = v := by
  rw [List.getD_eq_getElem?_getD, h]
  rfl

theorem ffill_close_getElem? {rows : List Row} {t : ℕ}
    (ht : t < rows.length) :
    (ffill (rows.map Row.close))[t]? =
      some ((ffill (rows.map Row.close)).getD t PVal.nan) := by
  rw [List.getD_eq_getElem?_getD]
  cases hx : (ffill (rows.map Row.close))[t]? with
  | none =>
      rw [List.getElem?_eq_none_iff, ffill_length, List.length_map] at hx
      omega
  | some x => rfl

theorem _get_first_close_isNan (rows : List Row) (hne : rows ≠ [])
    (hall : ∀ r ∈ rows, r.close.isNan = true) :
    (_get_first_close rows).isNan = true := by
  rw [_get_first_close.eq_def]
  cases hf : rows.find? (fun r => !r.close.isNan) with
  | some rv =>
      have hp := List.find?_some hf
      have hrv : rv ∈ rows := List.mem_of_find?_eq_some hf
      rw [hall rv hrv] at hp
      simp at hp
  | none =>
      cases rows with
      | nil => exact absurd rfl hne
      | cons r rs => exact hall r (List.mem_cons_self r rs)

theorem sortByDate_mem {rows : List Row} {r : Row} :
    r ∈ sortByDate rows ↔ r ∈ rows := by
  rw [sortByDate]
  exact (List.perm_insertionSort _ rows).mem_iff

theorem sortByDate_ne_nil {rows : List Row} (hne : rows ≠ []) :
    sortByDate rows ≠ [] := by
  intro h
  have := (List.perm_insertionSort (fun a b : Row => a.date ≤ b.date)
    rows).length_eq
  rw [sortByDate] at h
  rw [h] at this
  exact hne (List.length_eq_zero.mp this.symm)

/-- C1 as frozen is false on the code: on a non-empty series with no valid
close, `first_valid_index()` is `None`, `df.loc[None:]` keeps the whole
frame, and `c0` is the first row's NaN close — every rebased field is then
divided or multiplied by NaN, so the stage is not a no-op.  Concretely,
`c1df`'s single row (open 5, no valid close) comes back with every rebased
field NaN. -/
theorem c1_counterexample_not_noop :
    c1df.rows ≠ [] ∧ (∀ x ∈ c1df.rows, x.close.isNan = true) ∧
    (_manual_adj_data c1df).rows = [c1outRow] ∧
    (_manual_adj_data c1df).rows ≠ c1df.rows := by
  refine ⟨by decide, by decide, by decide, by decide⟩

/-- C1 amended.  For every non-empty input series in which no row has a
non-null close, the rebasing stage `_manual_adj_data` is not a no-op but a
total invalidation: every rebased numeric field (open, high, low, close,
volume, amount, and factor when that column exists) of every returned row
is null, while the date, change and adjclose columns pass through
unchanged — so the unusable-series condition surfaces to the caller as a
degenerate all-null result rather than silently passing for success. -/
theorem c1_nan_close_rebase (df : DF) (r : Row) (hne : df.rows ≠ [])
    (hall : ∀ x ∈ df.rows, x.close.isNan = true)
    (hr : r ∈ (_manual_adj_data df).rows) :
    (r.«open».isNan = true ∧ r.high.isNan = true ∧ r.low.isNan = true ∧
     r.close.isNan = true ∧ r.volume.isNan = true ∧ r.amount.isNan = true ∧
     (df.hasFactor = true → r.factor.isNan = true)) ∧
    (_manual_adj_data df).rows.map (fun x => (x.date, x.change, x.adjclose)) =
      (sortByDate df.rows).map (fun x => (x.date, x.change, x.adjclose)) := by
  have hemp : df.rows.isEmpty = false := by
    cases hrows : df.rows with
    | nil => exact absurd hrows hne
    | cons a as => rfl
  have hsall : ∀ x ∈ sortByDate df.rows, x.close.isNan = true := fun x hx =>
    hall x (sortByDate_mem.mp hx)
  have hc : (_get_first_close (sortByDate df.rows)).isNan = true :=
    _get_first_close_isNan _ (sortByDate_ne_nil hne) hsall
  have hrows : (_manual_adj_data df).rows =
      (sortByDate df.rows).map fun x =>
        { x with «open» := pdiv x.«open» (_get_first_close (sortByDate df.rows)),
                 high := pdiv x.high (_get_first_close (sortByDate df.rows)),
                 low := pdiv x.low (_get_first_close (sortByDate df.rows)),
                 close := pdiv x.close (_get_first_close (sortByDate df.rows)),
                 amount := pdiv x.amount (_get_first_close (sortByDate df.rows)),
                 volume := pmul x.volume (_get_first_close (sortByDate df.rows)),
                 factor := if df.hasFactor then
                     pdiv x.factor (_get_first_close (sortByDate df.rows))
                   else x.factor } := by
    rw [_manual_adj_data, if_neg (by rw [hemp]; exact Bool.false_ne_true)]
  constructor
  · rw [hrows] at hr
    obtain ⟨x, _, hxr⟩ := List.mem_map.mp hr
    rw [← hxr]
    refine ⟨pdiv_isNan_of_isNan_right _ _ hc, pdiv_isNan_of_isNan_right _ _ hc,
      pdiv_isNan_of_isNan_right _ _ hc, pdiv_isNan_of_isNan_right _ _ hc,
      pmul_isNan_of_isNan_right _ _ hc, pdiv_isNan_of_isNan_right _ _ hc,
      fun hF => ?_⟩
    show (if df.hasFactor then
        pdiv x.factor (_get_first_close (sortByDate df.rows))
      else x.factor).isNan = true
    rw [if_pos hF]
    exact pdiv_isNan_of_isNan_right _ _ hc
  · rw [hrows, List.map_map]
    exact List.map_congr_left fun x _ => rfl

/-- Closed instantiation of the hypotheses and conclusion of
`c1_nan_close_rebase` at the concrete frame `c1df` and its output row. -/
theorem c1_nan_close_rebase_witness :
    c1df.rows ≠ [] ∧ (∀ x ∈ c1df.rows, x.close.isNan = true) ∧
    c1outRow ∈ (_manual_adj_data c1df).rows ∧
    ((c1outRow.«open».isNan = true ∧ c1outRow.high.isNan = true ∧
      c1outRow.low.isNan = true ∧ c1outRow.close.isNan = true ∧
      c1outRow.volume.isNan = true ∧ c1outRow.amount.isNan = true ∧
      (c1df.hasFactor = true → c1outRow.factor.isNan = true)) ∧
     (_manual_adj_data c1df).rows.map (fun x => (x.date, x.change, x.adjclose)) =
       (sortByDate c1df.rows).map (fun x => (x.date, x.change, x.adjclose))) :=
  ⟨by decide, by decide, by decide,
    c1_nan_close_rebase c1df c1outRow (by decide) (by decide) (by decide)⟩

/-- C2 as frozen is false on the code: dividing by a prior forward-filled
close that is exactly 0 yields +∞ (numpy float semantics), a non-null
cell, not a null one.  On `c2rows` (closes 0 then 5) the change of row 1
is 5/0 − 1 = +∞. -/
theorem c2_counterexample_zero_divisor_infinite :
    calc_change c2rows none = some [PVal.nan, PVal.inf true] ∧
    (PVal.inf true).isNan = false := by
  refine ⟨by decide, rfl⟩

/-- C2 amended.  In change calculation and in baseline rebasing, a null
divisor (prior forward-filled close, or reference close `c0`) propagates
as a null result cell, and a zero divisor as a null or infinite cell;
either way the affected cell is never a finite non-null number (in
particular never zero) and no exception is raised — but a zero divisor
with a nonzero numerator yields ±∞, not null as the frozen claim stated. -/
theorem c2_null_or_zero_divisor_nonfinite :
    (∀ (rows : List Row) (lc : Option ℚ) (ch sh : List PVal) (t : ℕ),
      calc_change rows lc = some ch → shiftSeries rows lc = some sh →
      t < rows.length →
      ((sh.getD t PVal.nan).isNan = true ∨ sh.getD t PVal.nan = PVal.num 0) →
      (ch.getD t PVal.nan).isNonfinite = true ∧
        ((sh.getD t PVal.nan).isNan = true → (ch.getD t PVal.nan).isNan = true)) ∧
    (∀ (df : DF) (r : Row), df.rows ≠ [] →
      ((_get_first_close (sortByDate df.rows)).isNan = true ∨
        _get_first_close (sortByDate df.rows) = PVal.num 0) →
      r ∈ (_manual_adj_data df).rows →
      (r.«open».isNonfinite = true ∧ r.high.isNonfinite = true ∧
       r.low.isNonfinite = true ∧ r.close.isNonfinite = true ∧
       r.amount.isNonfinite = true) ∧
      ((_get_first_close (sortByDate df.rows)).isNan = true →
        r.«open».isNan = true ∧ r.high.isNan = true ∧ r.low.isNan = true ∧
        r.close.isNan = true ∧ r.amount.isNan = true)) := by
  constructor
  · intro rows lc ch sh t hch hsh ht hdiv
    have hcell : ch.getD t PVal.nan =
        psub (pdiv ((ffill (rows.map Row.close)).getD t PVal.nan)
          (sh.getD t PVal.nan)) (num 1) :=
      getD_of_getElem?_some (calc_change_getElem hch hsh t ht)
    constructor
    · rw [hcell]
      rcases hdiv with hdiv | hdiv
      · exact isNonfinite_psub_one _ (isNonfinite_of_isNan _
          (pdiv_isNan_of_isNan_right _ _ hdiv))
      · rw [hdiv]
        exact isNonfinite_psub_one _ (isNonfinite_pdiv_zero _)
    · intro hnan
      rw [hcell, eq_nan_of_isNan _ hnan]
      exact isNan_psub_one _ (isNan_pdiv_nan_right _)
  · intro df r hne hc0 hr
    have hemp : df.rows.isEmpty = false := by
      cases hrows : df.rows with
      | nil => exact absurd hrows hne
      | cons a as => rfl
    rw [_manual_adj_data, if_neg (by rw [hemp]; exact Bool.false_ne_true)]
      at hr
    dsimp only [] at hr
    obtain ⟨x, _, hxr⟩ := List.mem_map.mp hr
    constructor
    · rw [← hxr]
      rcases hc0 with hc0 | hc0
      · have h1 : ∀ a : PVal,
            (pdiv a (_get_first_close (sortByDate df.rows))).isNonfinite
              = true := fun a => isNonfinite_of_isNan _
            (pdiv_isNan_of_isNan_right _ _ hc0)
        exact ⟨h1 _, h1 _, h1 _, h1 _, h1 _⟩
      · rw [hc0]
        exact ⟨isNonfinite_pdiv_zero _, isNonfinite_pdiv_zero _,
          isNonfinite_pdiv_zero _, isNonfinite_pdiv_zero _,
          isNonfinite_pdiv_zero _⟩
    · intro hnan
      rw [← hxr]
      exact ⟨pdiv_isNan_of_isNan_right _ _ hnan,
        pdiv_isNan_of_isNan_right _ _ hnan,
        pdiv_isNan_of_isNan_right _ _ hnan,
        pdiv_isNan_of_isNan_right _ _ hnan,
        pdiv_isNan_of_isNan_right _ _ hnan⟩

/-- Closed instantiation of the change-calculation half of
`c2_null_or_zero_divisor_nonfinite`: on `c2rows` the divisor for row 1
is the zero close, and the resulting change cell is non-finite. -/
theorem c2_null_or_zero_divisor_witness :
    calc_change c2rows none = some [PVal.nan, PVal.inf true] ∧
    shiftSeries c2rows none = some [PVal.nan, PVal.num 0] ∧
    ([PVal.nan, PVal.num 0].getD 1 PVal.nan = PVal.num 0) ∧
    (([PVal.nan, PVal.inf true].getD 1 PVal.nan).isNonfinite = true ∧
      (([PVal.nan, PVal.num 0].getD 1 PVal.nan).isNan = true →
        ([PVal.nan, PVal.inf true].getD 1 PVal.nan).isNan = true)) :=
  ⟨by decide, by decide, by decide,
    c2_null_or_zero_divisor_nonfinite.1 c2rows none
      [PVal.nan, PVal.inf true] [PVal.nan, PVal.num 0] 1
      (by decide) (by decide) (by decide) (Or.inr (by decide))⟩

/-- C7 as frozen is false on the code in one degenerate case: on an empty
input table with a seed supplied, `_tmp_shift_series.iloc[0] = last_close`
is a positional write into an empty series and raises IndexError, so
`calc_change` does not return a series at all. -/
theorem c7_counterexample_empty_with_seed :
    calc_change [] (some 1) = none := by decide

/-- C7 amended.  Whenever `calc_change` returns (i.e. on every input
except the empty-table-with-seed case, where pandas raises), the returned
series has one cell per row with
`change[t] = ffill(close)[t] / ffill(close)[t−1] − 1` for every `t > 0`;
the first cell is computed against the seed when one is supplied and is
null when no seed is given (its shifted predecessor is null).
`calc_change` is a pure function of its inputs: deterministic, input
table unmodified. -/
theorem c7_change_formula (rows : List Row) (lc : Option ℚ) (ch : List PVal)
    (h : calc_change rows lc = some ch) :
    ch.length = rows.length ∧
    (∀ t, t + 1 < rows.length →
      ch.getD (t + 1) PVal.nan =
        psub (pdiv ((ffill (rows.map Row.close)).getD (t + 1) PVal.nan)
          ((ffill (rows.map Row.close)).getD t PVal.nan)) (num 1)) ∧
    (lc = none → rows ≠ [] → ch.getD 0 PVal.nan = PVal.nan) ∧
    (∀ c : ℚ, lc = some c →
      ch.getD 0 PVal.nan =
        psub (pdiv ((ffill (rows.map Row.close)).getD 0 PVal.nan)
          (PVal.num c)) (num 1)) := by
  have hsh : ∃ sh, shiftSeries rows lc = some sh := by
    rw [calc_change] at h
    cases hs : shiftSeries rows lc with
    | none => rw [hs] at h; exact absurd h (by simp)
    | some sh => exact ⟨sh, rfl⟩
  obtain ⟨sh, hs⟩ := hsh
  refine ⟨calc_change_length h, ?_, ?_, ?_⟩
  · intro t ht
    have hcell : ch.getD (t + 1) PVal.nan =
        psub (pdiv ((ffill (rows.map Row.close)).getD (t + 1) PVal.nan)
          (sh.getD (t + 1) PVal.nan)) (num 1) :=
      getD_of_getElem?_some (calc_change_getElem h hs (t + 1) ht)
    have hshv : sh.getD (t + 1) PVal.nan =
        (ffill (rows.map Row.close)).getD t PVal.nan := by
      have := shiftSeries_getElem_succ hs t ht
      rw [ffill_close_getElem? (by omega)] at this
      exact getD_of_getElem?_some this
    rw [hcell, hshv]
  · intro hlc hne
    subst hlc
    have h0 : 0 < rows.length := by
      cases rows with
      | nil => exact absurd rfl hne
      | cons a as => simp
    have hcell : ch.getD 0 PVal.nan =
        psub (pdiv ((ffill (rows.map Row.close)).getD 0 PVal.nan)
          (sh.getD 0 PVal.nan)) (num 1) :=
      getD_of_getElem?_some (calc_change_getElem h hs 0 h0)
    have hsh0 : sh.getD 0 PVal.nan = PVal.nan :=
      getD_of_getElem?_some (shiftSeries_head_none hs hne)
    rw [hcell, hsh0, pdiv_nan_right]
    rfl
  · intro c hlc
    subst hlc
    have hne : rows ≠ [] := by
      intro hnil
      subst hnil
      simp [shiftSeries, ffill, ffillFrom, shift1] at hs
    have h0 : 0 < rows.length := by
      cases rows with
      | nil => exact absurd rfl hne
      | cons a as => simp
    have hcell : ch.getD 0 PVal.nan =
        psub (pdiv ((ffill (rows.map Row.close)).getD 0 PVal.nan)
          (sh.getD 0 PVal.nan)) (num 1) :=
      getD_of_getElem?_some (calc_change_getElem h hs 0 h0)
    have hsh0 : sh.getD 0 PVal.nan = PVal.num c :=
      getD_of_getElem?_some (shiftSeries_head_some hs)
    rw [hcell, hsh0]

/-- Closed instantiation of `c7_change_formula` on the one-row frame
`c7rows` with seed 2: the single change cell is 3/2 − 1. -/
theorem c7_change_formula_witness :
    calc_change c7rows (some 2) = some [PVal.num (1 / 2)] ∧
    (([PVal.num (1 / 2)] : List PVal).length = c7rows.length ∧
     (∀ t, t + 1 < c7rows.length →
       ([PVal.num (1 / 2)] : List PVal).getD (t + 1) PVal.nan =
         psub (pdiv ((ffill (c7rows.map Row.close)).getD (t + 1) PVal.nan)
           ((ffill (c7rows.map Row.close)).getD t PVal.nan)) (num 1)) ∧
     ((some 2 : Option ℚ) = none → c7rows ≠ [] →
       ([PVal.num (1 / 2)] : List PVal).getD 0 PVal.nan = PVal.nan) ∧
     (∀ c : ℚ, (some 2 : Option ℚ) = some c →
       ([PVal.num (1 / 2)] : List PVal).getD 0 PVal.nan =
         psub (pdiv ((ffill (c7rows.map Row.close)).getD 0 PVal.nan)
           (PVal.num c)) (num 1))) := by
  have h : calc_change c7rows (some 2) = some [PVal.num (1 / 2)] := by
    norm_num [calc_change, shiftSeries, ffill, ffillFrom, shift1, c7rows,
      PVal.pdiv, PVal.psub, PVal.isNan]
  exact ⟨h, c7_change_formula c7rows (some 2) [PVal.num (1 / 2)] h⟩

/-- C5.  On the synthetic series `c5rows` (one row at exactly 100× its
neighbors' level, detected change 99 ∈ [89, 111]): one correction pass
divides exactly that row's price-bearing fields (high, close, low, open
and the present adjclose) by 100, making them equal the neighbor-level
prices exactly, volume (100) and amount (7) untouched; the loop then
terminates within its 10-pass budget with that corrected frame, the
recomputed change series being flag-free. -/
theorem c5_outlier_single_pass :
    calc_change c5rows none =
      some [PVal.nan, PVal.num 99, PVal.num (-99 / 100)] ∧
    [PVal.nan, PVal.num 99, PVal.num (-99 / 100)].map inBand =
      [false, true, false] ∧
    correctRows true c5rows [false, true, false] =
      [c5row 0 10, c5row 1 10, c5row 2 10] ∧
    outlierLoop true none 10 c5rows =
      some [c5row 0 10, c5row 1 10, c5row 2 10] ∧
    calc_change [c5row 0 10, c5row 1 10, c5row 2 10] none =
      some [PVal.nan, PVal.num 0, PVal.num 0] := by
  have h1 : calc_change c5rows none =
      some [PVal.nan, PVal.num 99, PVal.num (-99 / 100)] := by
    norm_num [calc_change, shiftSeries, ffill, ffillFrom, shift1, c5rows,
      c5row, PVal.pdiv, PVal.psub, PVal.isNan]
  have hm : [PVal.nan, PVal.num 99, PVal.num (-99 / 100)].map inBand =
      [false, true, false] := by
    norm_num [inBand, PVal.ple]
  have hcorr : correctRows true c5rows [false, true, false] =
      [c5row 0 10, c5row 1 10, c5row 2 10] := by
    norm_num [correctRows, c5rows, c5row, div100, PVal.pdiv]
  have h2 : calc_change [c5row 0 10, c5row 1 10, c5row 2 10] none =
      some [PVal.nan, PVal.num 0, PVal.num 0] := by
    norm_num [calc_change, shiftSeries, ffill, ffillFrom, shift1, c5row,
      PVal.pdiv, PVal.psub, PVal.isNan]
  refine ⟨h1, hm, hcorr, ?_, h2⟩
  rw [show (10 : ℕ) = 9 + 1 from rfl,
    outlierLoop_step true none 9 c5rows _ h1 (by rw [hm]; rfl), hm, hcorr,
    show (9 : ℕ) = 8 + 1 from rfl,
    outlierLoop_stop true none 8 _ _ h2 (by norm_num [inBand, PVal.ple])]

theorem ffillFrom_of_no_nan (p : PVal) :
    ∀ l : List PVal, (∀ v ∈ l, v.isNan = false) → ffillFrom p l = l
  | [], _ => rfl
  | v :: vs, h => by
      have hv : v.isNan = false := h v (List.mem_cons_self v vs)
      show (if v.isNan then p else v) ::
        ffillFrom (if v.isNan then p else v) vs = v :: vs
      rw [hv]
      simp only [Bool.false_eq_true, if_false]
      rw [ffillFrom_of_no_nan v vs fun x hx => h x (List.mem_cons_of_mem v hx)]

theorem ffill_of_no_nan (l : List PVal) (h : ∀ v ∈ l, v.isNan = false) :
    ffill l = l := ffillFrom_of_no_nan PVal.nan l h

theorem zipWith_map_self {α β γ : Type} (f : α → β → γ) (g : α → β) :
    ∀ l : List α, List.zipWith f l (l.map g) = l.map fun a => f a (g a)
  | [] => rfl
  | a :: as => by
      simp only [List.map_cons, List.zipWith_cons_cons,
        zipWith_map_self f g as]

/-- C8 as frozen is false on the code: `adjclose == close` on every row is
not enough for a uniform factor of 1, since a row whose close (and hence
adjclose) is exactly 0 makes the ratio 0/0 = NaN.  On `c8df` (single row,
close = adjclose = 0, open 5) the factor is NaN and the adjusted open is
NaN, not the pre-adjustment 5. -/
theorem c8_counterexample_zero_close :
    c8df.hasAdjclose = true ∧ (∀ r ∈ c8df.rows, r.adjclose = r.close) ∧
    (adjusted_price c8df).rows.map Row.factor = [PVal.nan] ∧
    (adjusted_price c8df).rows.map Row.«open» = [PVal.nan] ∧
    c8df.rows.map Row.«open» = [PVal.num 5] := by
  refine ⟨rfl, by decide, by decide, by decide, by decide⟩

/-- C8 amended.  For every input table in which the adjclose column is
present and equal to the close column on every row, the close being a
valid (non-null, nonzero, finite) value throughout, `adjusted_price`
produces a factor that is uniformly 1 and leaves every other column —
open, high, low, close, volume, amount, adjclose, change — exactly equal
to its pre-adjustment value.  The validity proviso is forced by the
counterexample: a zero (or null) close makes the ratio NaN. -/
theorem c8_identity_adjustment (df : DF) (hA : df.hasAdjclose = true)
    (hvalid : ∀ r ∈ df.rows, ∃ q : ℚ, q ≠ 0 ∧ r.close = PVal.num q ∧
      r.adjclose = PVal.num q) :
    (adjusted_price df).rows =
      df.rows.map fun r => { r with factor := PVal.num 1 } := by
  by_cases hemp : df.rows.isEmpty = true
  · rw [adjusted_price, if_pos hemp, List.isEmpty_iff.mp hemp]
    rfl
  · rw [adjusted_price, if_neg hemp]
    dsimp only []
    rw [hA]
    have hfac : df.rows.map (fun r => pdiv r.adjclose r.close) =
        df.rows.map fun _ => PVal.num 1 := by
      apply List.map_congr_left
      intro r hr
      obtain ⟨q, hq, hcl, hadj⟩ := hvalid r hr
      rw [hcl, hadj]
      have hd : pdiv (PVal.num q) (PVal.num q) = PVal.num (q / q) := by
        simp [PVal.pdiv, hq]
      rw [hd, div_self hq]
    rw [if_pos (by trivial), hfac, ffill_of_no_nan _ ?_, zipWith_map_self,
      List.map_map]
    · apply List.map_congr_left
      intro r _
      cases r
      simp [pmul_one, pdiv_one]
    · intro v hv
      obtain ⟨r, _, hrv⟩ := List.mem_map.mp hv
      rw [← hrv]
      rfl

/-- Closed instantiation of `c8_identity_adjustment` at `c8wdf`
(adjclose = close = 2 on its single row). -/
theorem c8_identity_adjustment_witness :
    c8wdf.hasAdjclose = true ∧
    (∀ r ∈ c8wdf.rows, ∃ q : ℚ, q ≠ 0 ∧ r.close = PVal.num q ∧
      r.adjclose = PVal.num q) ∧
    (adjusted_price c8wdf).rows =
      c8wdf.rows.map fun r => { r with factor := PVal.num 1 } := by
  have hvalid : ∀ r ∈ c8wdf.rows, ∃ q : ℚ, q ≠ 0 ∧ r.close = PVal.num q ∧
      r.adjclose = PVal.num q := by
    intro r hr
    rw [show c8wdf.rows = [⟨0, PVal.num 5, PVal.num 6, PVal.num 4,
      PVal.num 2, PVal.num 3, PVal.num 7, PVal.num 2, PVal.nan,
      PVal.nan⟩] from rfl, List.mem_singleton] at hr
    subst hr
    exact ⟨2, by norm_num, rfl, rfl⟩
  exact ⟨rfl, hvalid, c8_identity_adjustment c8wdf rfl hvalid⟩

/-- Closed instantiation of `c3_invalid_volume_masked`: `c3df`'s single
row has volume 0, and `normalize_wind_data` returns it with every
non-symbol field (adjclose included) null. -/
theorem c3_invalid_volume_masked_witness :
    normalize_wind_data none c3df none = some ⟨[nullRow 0], true, false⟩ ∧
    nullRow 0 ∈ (⟨[nullRow 0], true, false⟩ : DF).rows ∧
    badVol (nullRow 0) = true ∧
    ((nullRow 0).«open».isNan = true ∧ (nullRow 0).high.isNan = true ∧
     (nullRow 0).low.isNan = true ∧ (nullRow 0).close.isNan = true ∧
     (nullRow 0).volume.isNan = true ∧ (nullRow 0).change.isNan = true ∧
     (nullRow 0).amount.isNan = true ∧
     ((⟨[nullRow 0], true, false⟩ : DF).hasAdjclose = true →
       (nullRow 0).adjclose.isNan = true)) :=
  ⟨by decide, by decide, by decide,
    c3_invalid_volume_masked none c3df none ⟨[nullRow 0], true, false⟩
      (nullRow 0) (by decide) (by decide) (by decide)⟩

/-- Closed instantiation of `c4_calendar_alignment`: calendar
`[0, 1, 2, 3]`, raw rows at dates 2 and 0 (out of order). -/
theorem c4_calendar_alignment_witness :
    List.Pairwise (· < ·) [0, 1, 2, 3] ∧ c4rows ≠ [] ∧
    (List.Pairwise (· < ·) ((calendarAlign none c4rows).map Row.date) ∧
     List.Pairwise (· < ·)
       ((calendarAlign (some [0, 1, 2, 3]) c4rows).map Row.date) ∧
     (calendarAlign (some [0, 1, 2, 3]) c4rows).map Row.date =
       [0, 1, 2, 3].filter (fun d =>
         decide ((c4rows.map Row.date).min?.getD 0 ≤ d) &&
         decide (d ≤ (c4rows.map Row.date).max?.getD 0)) ∧
     ∀ r ∈ calendarAlign (some [0, 1, 2, 3]) c4rows,
       r.date ∉ c4rows.map Row.date → r = nullRow r.date) :=
  ⟨by decide, by decide,
    c4_calendar_alignment [0, 1, 2, 3] c4rows (by decide) (by decide)⟩

/-- Closed instantiation of `c6_outlier_loop_bounded` on the flag-free
frame `c4rows` with no seed. -/
theorem c6_outlier_loop_bounded_witness :
    (c4rows ≠ [] ∨ (none : Option ℚ) = none) ∧
    ∃ k ≤ 10, outlierLoop false none 10 c4rows =
        some ((stepOnce false none)^[k] c4rows) ∧
      (k < 10 → anyFlagged none ((stepOnce false none)^[k] c4rows) =
        some false) :=
  ⟨Or.inr rfl, c6_outlier_loop_bounded false none c4rows (Or.inr rfl)⟩

/-- C10.  On an empty input table every stage returns the input unchanged
and nothing raises: `normalize_wind_data`, `adjusted_price` and
`_manual_adj_data` each short-circuit on `df.empty`, and so does the full
`normalize`, whatever the calendar, seed and optional-column flags. -/
theorem c10_empty_passthrough (cal : Option (List ℕ)) (lc : Option ℚ)
    (b1 b2 : Bool) :
    normalize_wind_data cal ⟨[], b1, b2⟩ lc = some ⟨[], b1, b2⟩ ∧
    adjusted_price ⟨[], b1, b2⟩ = ⟨[], b1, b2⟩ ∧
    _manual_adj_data ⟨[], b1, b2⟩ = ⟨[], b1, b2⟩ ∧
    normalize cal ⟨[], b1, b2⟩ lc = some ⟨[], b1, b2⟩ :=
  ⟨rfl, rfl, rfl, rfl⟩

/-- C9.  The full pipeline is not idempotent: on `c9df` it returns
`c9out1`, but run again on `c9out1` it returns `c9out2 ≠ c9out1` — the
rebasing stage re-anchors the second run to the new first valid close
(1 instead of 2), so the factor column, recomputed by the adjustment
stage and then rebased by the new anchor, ends at 1 instead of 1/2. -/
theorem c9_not_idempotent :
    normalize none c9df none = some c9out1 ∧
    normalize none c9out1 none = some c9out2 ∧
    c9out2 ≠ c9out1 := by
  have hcc1 : calc_change c9df.rows none = some [PVal.nan, PVal.num 1] := by
    norm_num [calc_change, shiftSeries, ffill, ffillFrom, shift1, c9df,
      PVal.pdiv, PVal.psub, PVal.isNan]
  have hloop1 : outlierLoop false none 10 c9df.rows = some c9df.rows := by
    rw [show (10 : ℕ) = 9 + 1 from rfl]
    exact outlierLoop_stop false none 9 _ _ hcc1
      (by norm_num [inBand, PVal.ple])
  have hM1 : (ffillClose (calendarAlign none c9df.rows)).map (maskAll false) =
      c9df.rows := by
    norm_num [calendarAlign, sortByDate, reindexStep, dedupDates, ffillClose,
      ffill, ffillFrom, maskAll, badVol, c9df, PVal.ple, PVal.isNan,
      List.insertionSort, List.orderedInsert]
  have hnwd1 : normalize_wind_data none c9df none =
      some ⟨[⟨0, PVal.num 2, PVal.num 2, PVal.num 2, PVal.num 2, PVal.num 1,
              PVal.num 3, PVal.nan, PVal.nan, PVal.nan⟩,
             ⟨1, PVal.num 4, PVal.num 4, PVal.num 4, PVal.num 4, PVal.num 1,
              PVal.num 5, PVal.nan, PVal.num 1, PVal.nan⟩],
            false, false⟩ := by
    rw [normalize_wind_data, if_neg (by decide)]
    dsimp only []
    rw [show c9df.hasAdjclose = false from rfl, hM1, hloop1]
    dsimp only []
    rw [hcc1]
    dsimp only []
    norm_num [setChange, maskPost, badVol, c9df, PVal.ple, PVal.isNan]
  have hadj1 : adjusted_price
      ⟨[⟨0, PVal.num 2, PVal.num 2, PVal.num 2, PVal.num 2, PVal.num 1,
         PVal.num 3, PVal.nan, PVal.nan, PVal.nan⟩,
        ⟨1, PVal.num 4, PVal.num 4, PVal.num 4, PVal.num 4, PVal.num 1,
         PVal.num 5, PVal.nan, PVal.num 1, PVal.nan⟩], false, false⟩ =
      ⟨[⟨0, PVal.num 2, PVal.num 2, PVal.num 2, PVal.num 2, PVal.num 1,
         PVal.num 3, PVal.nan, PVal.nan, PVal.num 1⟩,
        ⟨1, PVal.num 4, PVal.num 4, PVal.num 4, PVal.num 4, PVal.num 1,
         PVal.num 5, PVal.nan, PVal.num 1, PVal.num 1⟩], false, true⟩ := by
    norm_num [adjusted_price, ffill, ffillFrom, PVal.pdiv, PVal.pmul,
      PVal.isNan]
  have hman1 : _manual_adj_data
      ⟨[⟨0, PVal.num 2, PVal.num 2, PVal.num 2, PVal.num 2, PVal.num 1,
         PVal.num 3, PVal.nan, PVal.nan, PVal.num 1⟩,
        ⟨1, PVal.num 4, PVal.num 4, PVal.num 4, PVal.num 4, PVal.num 1,
         PVal.num 5, PVal.nan, PVal.num 1, PVal.num 1⟩], false, true⟩ =
      c9out1 := by
    norm_num [_manual_adj_data, sortByDate, List.insertionSort,
      List.orderedInsert, _get_first_close, List.find?, PVal.pdiv, PVal.pmul,
      PVal.isNan, c9out1]
  have hrun1 : normalize none c9df none = some c9out1 := by
    rw [normalize, hnwd1, Option.map_some', hadj1, hman1]
  have hcc2 : calc_change c9out1.rows none = some [PVal.nan, PVal.num 1] := by
    norm_num [calc_change, shiftSeries, ffill, ffillFrom, shift1, c9out1,
      PVal.pdiv, PVal.psub, PVal.isNan]
  have hloop2 : outlierLoop false none 10 c9out1.rows = some c9out1.rows := by
    rw [show (10 : ℕ) = 9 + 1 from rfl]
    exact outlierLoop_stop false none 9 _ _ hcc2
      (by norm_num [inBand, PVal.ple])
  have hM2 : (ffillClose (calendarAlign none c9out1.rows)).map
      (maskAll false) = c9out1.rows := by
    norm_num [calendarAlign, sortByDate, reindexStep, dedupDates, ffillClose,
      ffill, ffillFrom, maskAll, badVol, c9out1, PVal.ple, PVal.isNan,
      List.insertionSort, List.orderedInsert]
  have hnwd2 : normalize_wind_data none c9out1 none =
      some ⟨[⟨0, PVal.num 1, PVal.num 1, PVal.num 1, PVal.num 1, PVal.num 2,
              PVal.num (3 / 2), PVal.nan, PVal.nan, PVal.num (1 / 2)⟩,
             ⟨1, PVal.num 2, PVal.num 2, PVal.num 2, PVal.num 2, PVal.num 2,
              PVal.num (5 / 2), PVal.nan, PVal.num 1, PVal.num (1 / 2)⟩],
            false, true⟩ := by
    rw [normalize_wind_data, if_neg (by decide)]
    dsimp only []
    rw [show c9out1.hasAdjclose = false from rfl, hM2, hloop2]
    dsimp only []
    rw [hcc2]
    dsimp only []
    norm_num [setChange, maskPost, badVol, c9out1, PVal.ple, PVal.isNan]
  have hadj2 : adjusted_price
      ⟨[⟨0, PVal.num 1, PVal.num 1, PVal.num 1, PVal.num 1, PVal.num 2,
         PVal.num (3 / 2), PVal.nan, PVal.nan, PVal.num (1 / 2)⟩,
        ⟨1, PVal.num 2, PVal.num 2, PVal.num 2, PVal.num 2, PVal.num 2,
         PVal.num (5 / 2), PVal.nan, PVal.num 1, PVal.num (1 / 2)⟩],
       false, true⟩ =
      ⟨[⟨0, PVal.num 1, PVal.num 1, PVal.num 1, PVal.num 1, PVal.num 2,
         PVal.num (3 / 2), PVal.nan, PVal.nan, PVal.num 1⟩,
        ⟨1, PVal.num 2, PVal.num 2, PVal.num 2, PVal.num 2, PVal.num 2,
         PVal.num (5 / 2), PVal.nan, PVal.num 1, PVal.num 1⟩], false, true⟩ := by
    norm_num [adjusted_price, ffill, ffillFrom, PVal.pdiv, PVal.pmul,
      PVal.isNan]
  have hman2 : _manual_adj_data
      ⟨[⟨0, PVal.num 1, PVal.num 1, PVal.num 1, PVal.num 1, PVal.num 2,
         PVal.num (3 / 2), PVal.nan, PVal.nan, PVal.num 1⟩,
        ⟨1, PVal.num 2, PVal.num 2, PVal.num 2, PVal.num 2, PVal.num 2,
         PVal.num (5 / 2), PVal.nan, PVal.num 1, PVal.num 1⟩], false, true⟩ =
      c9out2 := by
    norm_num [_manual_adj_data, sortByDate, List.insertionSort,
      List.orderedInsert, _get_first_close, List.find?, PVal.pdiv, PVal.pmul,
      PVal.isNan, c9out2]
  have hrun2 : normalize none c9out1 none = some c9out2 := by
    rw [normalize, hnwd2, Option.map_some', hadj2, hman2]
  refine ⟨hrun1, hrun2, ?_⟩
  intro he
  rw [c9out1, c9out2] at he
  simp only [DF.mk.injEq, List.cons.injEq, Row.mk.injEq, PVal.num.injEq]
    at he
  norm_num at he

end WindNormalize1d
